import Mathlib

/-!
Verification of the comprehension-scoring core of the `mecab-api-server`
application (`app.py`): text normalization, tokenizer-output parsing,
part-of-speech filtering, morph-key construction, known-morph loading and
the occurrence-weighted comprehension score.

Strings are modelled as Lean `String` (sequences of unicode code points,
as in Python); the whitespace class of Python's `str.strip` / `\s` is
modelled exactly by `pySpaceChars`, CPython's 29-code-point whitespace
class.  Python's float arithmetic in the score
formula `int((known / total) * 100)` is modelled exactly: `fpRound`
performs IEEE-754 binary64 round-to-nearest-even (53-bit significand,
unbounded exponent — exact for every value that occurs in the score
computation, which never leaves the normal range).
-/

set_option allowUnsafeReducibility true

attribute [local semireducible] Rat.mul Rat.add Rat.sub Rat.inv

/-! ### Exact model of binary64 rounding -/

/-- `2 ^ k` as a rational, for an integer exponent `k`. -/
def pow2 (k : ℤ) : ℚ :=
  if 0 ≤ k then ((2 ^ k.toNat : ℕ) : ℚ) else 1 / ((2 ^ (-k).toNat : ℕ) : ℚ)

/-- Round a rational to the nearest integer, ties to even. -/
def rne (x : ℚ) : ℤ :=
  let f := ⌊x⌋
  let r := x - (f : ℚ)
  if r < 1 / 2 then f
  else if (1 : ℚ) / 2 < r then f + 1
  else if f % 2 = 0 then f else f + 1

/-- `⌊log₂ n⌋` by fuelled structural recursion (so that it evaluates by
kernel reduction); exact for every `n < 2 ^ 4096`, far beyond any value
reachable in the score computation. -/
def log2Fuel : ℕ → ℕ → ℕ
  | 0, _ => 0
  | fuel + 1, n => if n < 2 then 0 else log2Fuel fuel (n / 2) + 1

/-- `⌊log₂ n⌋` for `n ≥ 1`. -/
def ilog2n (n : ℕ) : ℕ := log2Fuel 4096 n

/-- For `x > 0`, the integer `k` with `2 ^ k ≤ x < 2 ^ (k + 1)`. -/
def ilog2q (x : ℚ) : ℤ :=
  let k0 : ℤ := (ilog2n x.num.toNat : ℤ) - (ilog2n x.den : ℤ)
  if x < pow2 k0 then k0 - 1 else if x < pow2 (k0 + 1) then k0 else k0 + 1

/-- Round a nonnegative rational to the nearest IEEE-754 binary64 value
(round to nearest, ties to even; exponent unbounded). -/
def fpRound (x : ℚ) : ℚ :=
  if x ≤ 0 then 0
  else
    let j := ilog2q x - 52
    ((rne (x / pow2 j) : ℤ) : ℚ) * pow2 j

/-- The Python float `known / total` (true division of two nonnegative
machine integers, correctly rounded to binary64). -/
def float_of_div (k t : ℕ) : ℚ := fpRound ((k : ℚ) / (t : ℚ))

/-- The Python expression `int((known / total) * 100)`: binary64 division,
binary64 multiplication by 100, then truncation toward zero. -/
def score_int (k t : ℕ) : ℕ := (⌊fpRound (float_of_div k t * 100)⌋).toNat

/-! ### Morph keys and occurrence counting
(`ComprehensionCalculator.calculate_comprehension_score`, app.py 334-375) -/

/-- `anki_morph_key = lemma + inflection` (app.py 281, 343). -/
def anki_morph_key (lemma_ inflection : String) : String := lemma_ ++ inflection

/-- One step of `morph_counts[key] = morph_counts.get(key, 0) + 1` on an
insertion-ordered association list modelling the Python dict. -/
def bump : List (String × ℕ) → String → List (String × ℕ)
  | [], k => [(k, 1)]
  | (k', n) :: rest, k =>
    if k' = k then (k', n + 1) :: rest else (k', n) :: bump rest k

/-- The dict `morph_counts` built by the loop at app.py 340-344. -/
def morph_counts (morphemes : List (String × String)) : List (String × ℕ) :=
  morphemes.foldl (fun acc m => bump acc (anki_morph_key m.1 m.2)) []

/-- `total_occurrences = sum(morph_counts.values())` (app.py 346). -/
def total_occurrences (morphemes : List (String × String)) : ℕ :=
  ((morph_counts morphemes).map Prod.snd).sum

/-- `ComprehensionCalculator._is_known_morph` (app.py 377-379). -/
def is_known_morph (known_morphs : Finset String) (morph : String) : Bool :=
  decide (morph ∈ known_morphs)

/-- `known_occurrences` accumulated by the loop at app.py 351-355. -/
def known_occurrences (known_morphs : Finset String)
    (morphemes : List (String × String)) : ℕ :=
  (((morph_counts morphemes).filter (fun p => is_known_morph known_morphs p.1)).map
    Prod.snd).sum

/-- `ComprehensionCalculator.calculate_comprehension_score` (app.py 334-375). -/
def calculate_comprehension_score (known_morphs : Finset String)
    (morphemes : List (String × String)) : ℕ :=
  if morphemes = [] then 0
  else if total_occurrences morphemes = 0 then 0
  else score_int (known_occurrences known_morphs morphemes) (total_occurrences morphemes)

/-! ### Text normalization (`MeCabAnalyzer.preprocess_text`, app.py 142-151),
modelled on `List Char` -/

/-- The 29 code points of CPython's whitespace class, shared by
`str.isspace`, argumentless `str.strip` and the regex class `\s` on `str`
patterns: `\t \n \v \f \r`, the separators `\x1c`-`\x1f`, the space, NEL
(U+0085), NBSP (U+00A0), the Ogham space (U+1680), the typographic spaces
U+2000-U+200A, the line and paragraph separators (U+2028, U+2029), the
narrow NBSP (U+202F), the mathematical space (U+205F) and the ideographic
space (U+3000). -/
def pySpaceChars : List Char :=
  ['\x09', '\x0a', '\x0b', '\x0c', '\x0d', '\x1c', '\x1d', '\x1e', '\x1f',
   '\x20', '\u0085', ' ', ' ', ' ', ' ', ' ',
   ' ', ' ', ' ', ' ', ' ', ' ', ' ',
   ' ', ' ', ' ', ' ', ' ', '　']

/-- Model of the regex whitespace class `\s` / `str.strip`'s whitespace:
membership in `pySpaceChars`. -/
def isSpace (c : Char) : Bool := pySpaceChars.contains c

/-- Negation of `isSpace`, as a `Bool` predicate. -/
def nonSpace (c : Char) : Bool := !isSpace c

/-- The punctuation class `[。、！？]` of app.py 148. -/
def puncts : List Char := ['。', '、', '！', '？']

/-- `re.sub(r'([。、！？])', r' \1 ', text)`: put a space before and after
every occurrence of a character of `puncts`. -/
def step1 : List Char → List Char
  | [] => []
  | c :: cs => (if c ∈ puncts then [' ', c, ' '] else [c]) ++ step1 cs

/-- Remove trailing whitespace (the right half of Python's `str.strip`). -/
def rstrip : List Char → List Char
  | [] => []
  | c :: cs =>
    if rstrip cs = [] then (if isSpace c then [] else [c]) else c :: rstrip cs

/-- Python's `str.strip()`: remove trailing then leading whitespace. -/
def pstrip (s : List Char) : List Char := (rstrip s).dropWhile isSpace

/-- `re.sub(r'\s+', ' ', ·)`: replace every maximal run of whitespace by a
single space. -/
def collapse : List Char → List Char
  | [] => []
  | c :: cs =>
    if isSpace c then ' ' :: collapse (cs.dropWhile isSpace) else c :: collapse cs
termination_by l => l.length
decreasing_by
  all_goals simp_wf
  all_goals first
    | (have h : List.Sublist (List.dropWhile isSpace cs) cs := List.dropWhile_sublist isSpace
       have := h.length_le
       omega)
    | omega

/-- `MeCabAnalyzer.preprocess_text` on `List Char`:
`re.sub(r'\s+', ' ', (step1 text).strip())`. -/
def preprocess (s : List Char) : List Char := collapse (pstrip (step1 s))

/-- `MeCabAnalyzer.preprocess_text` (app.py 142-151). -/
def preprocess_text (s : String) : String := ⟨preprocess s.data⟩


/-! ### Python single-character-separator `str.split` -/

/-- Accumulating worker for `splitSep`. -/
def splitSepAux (sep : Char) : List Char → List Char → List (List Char)
  | [], cur => [cur.reverse]
  | c :: cs, cur =>
    if c = sep then cur.reverse :: splitSepAux sep cs []
    else splitSepAux sep cs (c :: cur)

/-- Python's `str.split(sep)` for a one-character separator `sep`
(empty pieces are kept, as in Python). -/
def splitSep (sep : Char) (s : List Char) : List (List Char) :=
  splitSepAux sep s []

/-! ### Tokenizer-output parsing (`MeCabAnalyzer.extract_morphemes`, app.py 86-140) -/

/-- `excluded_pos` (app.py 158-162). -/
def excluded_pos : List (List Char) :=
  ["記号".data, "補助記号".data, "空白".data]

/-- `MeCabAnalyzer.should_exclude_pos` (app.py 153-163). -/
def should_exclude_pos (pos : List Char) : Bool := excluded_pos.contains pos

/-- The body of the per-line loop of `extract_morphemes` (app.py 108-134):
the `(lemma, inflection)` pair contributed by one line of MeCab output, or
`none` when the line is `EOS`/blank, has fewer than 2 tab-separated parts,
fewer than 7 comma-separated features, or an excluded part of speech. -/
def parse_morph_line (line : List Char) : Option (String × String) :=
  if line = "EOS".data ∨ pstrip line = [] then none
  else
    let parts := splitSep '\t' line
    if parts.length < 2 then none
    else
      let inflection := parts.getD 0 []
      let features := splitSep ',' (parts.getD 1 [])
      if features.length < 7 then none
      else
        let lemma_ := if features.getD 6 [] = ['*'] then inflection else features.getD 6 []
        if should_exclude_pos (features.getD 0 []) then none
        else some (⟨lemma_⟩, ⟨inflection⟩)

/-- The loop of `extract_morphemes` over the split output lines. -/
def extract_from_lines (lines : List (List Char)) : List (String × String) :=
  lines.filterMap parse_morph_line

/-- `extract_morphemes`' processing of the full MeCab output string
(`parsed.split('\n')`, app.py 108). -/
def extract_from_parsed (parsed : String) : List (String × String) :=
  extract_from_lines (splitSep '\n' parsed.data)

/-- Spec-side decomposition of `parse_morph_line` (§4.3 of the spec): the
well-formedness parsing alone, returning `(lemma, inflection, partOfSpeech)`
with no part-of-speech exclusion applied.  Used to state that extraction
is exactly "parse the well-formed lines, then filter by part of speech". -/
def parse_morph_line_fields (line : List Char) :
    Option (List Char × List Char × List Char) :=
  if line = "EOS".data ∨ pstrip line = [] then none
  else
    let parts := splitSep '\t' line
    if parts.length < 2 then none
    else
      let inflection := parts.getD 0 []
      let features := splitSep ',' (parts.getD 1 [])
      if features.length < 7 then none
      else
        let lemma_ := if features.getD 6 [] = ['*'] then inflection else features.getD 6 []
        some (lemma_, inflection, features.getD 0 [])
/-! ### The analyzer boundary and `extract_morphemes` -/

/-- `MeCabAnalyzer`: the underlying tagger is modelled by its `parse`
function; `none` models `self.mecab.parse` raising an exception (the
`except` at app.py 138-140 then returns `[]`). -/
structure MeCabAnalyzer where
  parse : String → Option String

/-- `MeCabAnalyzer.extract_morphemes` (app.py 86-140). -/
def extract_morphemes (analyzer : MeCabAnalyzer) (text : String) :
    List (String × String) :=
  if text = "" then []
  else
    match analyzer.parse (preprocess_text text) with
    | none => []
    | some parsed => extract_from_parsed parsed

/-! ### `ComprehensionCalculator.calculate_comprehension` (app.py 292-332) -/

/-- The result dictionaries returned by `calculate_comprehension`.  Keys
absent from a returned dict are modelled by `none` (`video_id` is always
`None` in this method and is omitted). -/
structure CompResult where
  success : Bool
  error : Option String
  comprehension_score : Option ℕ
  subtitle_length : Option ℕ
  morpheme_count : Option ℕ
  known_morphs_total : Option ℕ
deriving DecidableEq

/-- `ComprehensionCalculator.calculate_comprehension` (app.py 292-332);
`known_morphs` is the calculator's loaded set. -/
def calculate_comprehension (known_morphs : Finset String)
    (analyzer : MeCabAnalyzer) (text : String) : CompResult :=
  if text = "" ∨ pstrip text.data = [] then
    { success := false, error := some "No text provided",
      comprehension_score := none, subtitle_length := none,
      morpheme_count := none, known_morphs_total := none }
  else
    let morphemes := extract_morphemes analyzer text
    if morphemes = [] then
      { success := false, error := some "Could not extract morphemes from text",
        comprehension_score := none, subtitle_length := none,
        morpheme_count := none, known_morphs_total := none }
    else
      { success := true, error := none,
        comprehension_score := some (calculate_comprehension_score known_morphs morphemes),
        subtitle_length := some text.length,
        morpheme_count := some morphemes.length,
        known_morphs_total := some known_morphs.card }

/-! ### Known-morph loading (`load_known_morphs_from_csv`, app.py 251-290) -/

/-- One row produced by `csv.DictReader`: the two required columns, each
`none` when the column is absent from the header (`row.get(…, '')` then
yields the default `''`).  Other columns are ignored by the code. -/
structure CsvRow where
  mLemma : Option String
  mInflection : Option String

/-- The body of the row loop of `load_known_morphs_from_csv`
(app.py 273-283): a row is accepted, its key inserted and the count
incremented, only when both stripped fields are non-blank. -/
def load_row_step (acc : Finset String × ℕ) (r : CsvRow) : Finset String × ℕ :=
  let lemma_ := pstrip (r.mLemma.getD "").data
  let inflection := pstrip (r.mInflection.getD "").data
  if lemma_ ≠ [] ∧ inflection ≠ [] then
    (insert (anki_morph_key ⟨lemma_⟩ ⟨inflection⟩) acc.1, acc.2 + 1)
  else acc

/-- `ComprehensionCalculator.load_known_morphs_from_csv` (app.py 251-290)
as a state transformer: given the calculator's current `known_morphs` set
and the parsed CSV rows, return the set after the call and the returned
success flag.  The body first executes `self.known_morphs.clear()`
(app.py 266), so accumulation starts from `∅` and the prior set is
discarded; the method returns `count > 0`. -/
def load_known_morphs_from_csv (known_morphs : Finset String)
    (rows : List CsvRow) : Finset String × Bool :=
  let cleared : Finset String := ∅
  let result := rows.foldl load_row_step (cleared, 0)
  (result.1, decide (0 < result.2))

/-! ### Helper functions for stating the normalization theorems -/

/-- The maximal whitespace-separated words of a character list (helper for
the normalization proofs; not part of the source). -/
def words : List Char → List (List Char)
  | [] => []
  | c :: cs =>
    if isSpace c then words cs
    else (c :: cs.takeWhile nonSpace) :: words (cs.dropWhile nonSpace)
termination_by l => l.length
decreasing_by
  all_goals simp_wf
  all_goals first
    | (have h : List.Sublist (List.dropWhile nonSpace cs) cs := List.dropWhile_sublist nonSpace
       have := h.length_le
       omega)
    | omega

/-- Join words with single spaces (helper; inverse of `words` on
normalized text). -/
def unwords : List (List Char) → List Char
  | [] => []
  | [w] => w
  | w :: v :: ws => w ++ ' ' :: unwords (v :: ws)

/-- Apply `words ∘ step1` to every word and concatenate (helper). -/
def explodeAll : List (List Char) → List (List Char)
  | [] => []
  | w :: ws => words (step1 w) ++ explodeAll ws

/-- A token is pure when it is a single punctuation character or contains
no punctuation character (helper predicate). -/
def pureTok (t : List Char) : Prop :=
  (∃ p, t = [p] ∧ p ∈ puncts) ∨ ∀ c ∈ t, c ∉ puncts

/-! ## Theorems -/

/-! ### Occurrence counting -/

theorem sum_bump (l : List (String × ℕ)) (k : String) :
    ((bump l k).map Prod.snd).sum = ((l.map Prod.snd).sum) + 1 := by
  induction l with
  | nil => simp [bump]
  | cons p rest ih =>
    obtain ⟨k', n⟩ := p
    by_cases h : k' = k
    · simp [bump, h]
      omega
    · simp [bump, h, ih]
      omega

theorem foldl_bump_sum (ms : List (String × String)) :
    ∀ init : List (String × ℕ),
      (((ms.foldl (fun acc m => bump acc (anki_morph_key m.1 m.2)) init).map
        Prod.snd).sum) = ((init.map Prod.snd).sum) + ms.length := by
  induction ms with
  | nil => intro init; simp
  | cons m ms ih =>
    intro init
    simp only [List.foldl_cons, List.length_cons]
    rw [ih (bump init (anki_morph_key m.1 m.2)), sum_bump]
    omega

theorem total_occurrences_eq_length (ms : List (String × String)) :
    total_occurrences ms = ms.length := by
  have := foldl_bump_sum ms []
  simpa [total_occurrences, morph_counts] using this

/-- C10: for every morpheme sequence, `totalOccurrences` (the sum of the
per-key counts) equals the length of the input sequence; hence for every
non-empty sequence it is non-zero, the `total_occurrences == 0` guard
branch is unreachable and the score division never divides by zero. -/
theorem C10_total_occurrences_length (ms : List (String × String)) :
    total_occurrences ms = ms.length ∧ (ms ≠ [] → total_occurrences ms ≠ 0) := by
  refine ⟨total_occurrences_eq_length ms, fun hne => ?_⟩
  have hlen : 0 < ms.length := List.length_pos.mpr hne
  rw [total_occurrences_eq_length ms]
  omega

/-- Witness for C10 at a concrete input. -/
theorem C10_witness :
    total_occurrences [("a", "b")] = 1 ∧ total_occurrences [("a", "b")] ≠ 0 :=
  ⟨(C10_total_occurrences_length [("a", "b")]).1,
   (C10_total_occurrences_length [("a", "b")]).2 (by decide)⟩

/-! ### The score formula (C2) -/

/-- C2, counterexample: on 29 known occurrences out of 50 the code's
float computation `int((29 / 50) * 100)` yields 57, while the exact
rational floor of `29 / 50 × 100` is 58; so the returned score does not
equal the floor over exact rationals. -/
theorem C2_counterexample :
    calculate_comprehension_score {"aa"}
        (List.replicate 29 ("a", "a") ++ List.replicate 21 ("b", "b")) = 57 ∧
      known_occurrences {"aa"}
        (List.replicate 29 ("a", "a") ++ List.replicate 21 ("b", "b")) = 29 ∧
      total_occurrences
        (List.replicate 29 ("a", "a") ++ List.replicate 21 ("b", "b")) = 50 ∧
      (⌊((29 : ℚ) / 50) * 100⌋).toNat = 58 ∧ (57 : ℕ) ≠ 58 := by
  decide

/-- C2 (amended): the returned score is the truncation toward zero of
`(knownOccurrences / totalOccurrences) × 100` evaluated in IEEE-754
binary64 arithmetic, which can differ from the exact-rational floor
(29 of 50 yields 57, not 58); a known-ratio of exactly 2/3 still yields
exactly 66: for every non-empty morpheme sequence and known set whose
known-occurrence ratio is 2/3, the score is 66. -/
theorem C2_amended (S : Finset String) (ms : List (String × String))
    (hne : ms ≠ [])
    (h23 : 3 * known_occurrences S ms = 2 * total_occurrences ms) :
    calculate_comprehension_score S ms = 66 := by
  have hpos : 0 < total_occurrences ms := by
    rw [total_occurrences_eq_length ms]
    exact List.length_pos.mpr hne
  have hratio : ((known_occurrences S ms : ℚ)) / (total_occurrences ms : ℚ) = 2 / 3 := by
    have h3 : (3 : ℚ) * (known_occurrences S ms : ℚ) =
        2 * (total_occurrences ms : ℚ) := by exact_mod_cast h23
    have ht : ((total_occurrences ms : ℚ)) ≠ 0 := by
      exact_mod_cast Nat.pos_iff_ne_zero.mp hpos
    field_simp
    linarith
  rw [calculate_comprehension_score, if_neg hne,
    if_neg (Nat.pos_iff_ne_zero.mp hpos), score_int, float_of_div, hratio]
  decide

/-- Witness for C2's amended theorem at a concrete input. -/
theorem C2_amended_witness :
    calculate_comprehension_score {"xy"} [("x", "y"), ("x", "y"), ("a", "b")] = 66 :=
  C2_amended {"xy"} [("x", "y"), ("x", "y"), ("a", "b")] (by decide) (by decide)

/-! ### Extreme scores (C8) and occurrence weighting (C7) -/

theorem keys_bump (l : List (String × ℕ)) (k x : String)
    (hx : x ∈ (bump l k).map Prod.fst) : x = k ∨ x ∈ l.map Prod.fst := by
  induction l with
  | nil => simpa [bump] using hx
  | cons q rest ih =>
    obtain ⟨k', n⟩ := q
    by_cases h : k' = k
    · subst h
      simpa [bump] using hx
    · simp only [bump, if_neg h, List.map_cons, List.mem_cons] at hx
      rcases hx with hx | hx
      · right
        simp [hx]
      · rcases ih hx with hx' | hx'
        · exact Or.inl hx'
        · right
          simp [hx']

theorem morph_counts_keys (ms : List (String × String)) :
    ∀ (init : List (String × ℕ)) (p : String × ℕ),
      p ∈ ms.foldl (fun acc m => bump acc (anki_morph_key m.1 m.2)) init →
      p.1 ∈ init.map Prod.fst ∨ ∃ m ∈ ms, p.1 = anki_morph_key m.1 m.2 := by
  induction ms with
  | nil =>
    intro init p hp
    simp only [List.foldl_nil] at hp
    exact Or.inl (List.mem_map_of_mem Prod.fst hp)
  | cons m ms ih =>
    intro init p hp
    simp only [List.foldl_cons] at hp
    rcases ih _ p hp with h | ⟨m', hm', hk⟩
    · rcases keys_bump _ _ _ h with h' | h'
      · exact Or.inr ⟨m, List.mem_cons_self m ms, h'⟩
      · exact Or.inl h'
    · exact Or.inr ⟨m', List.mem_cons_of_mem m hm', hk⟩

/-- C8: for every non-empty morpheme sequence, if every morph key is in
the known set the score is exactly 100, and if no morph key is in the
known set the score is exactly 0. -/
theorem C8_extreme_scores (S : Finset String) (ms : List (String × String))
    (hne : ms ≠ []) :
    ((∀ m ∈ ms, anki_morph_key m.1 m.2 ∈ S) →
        calculate_comprehension_score S ms = 100) ∧
      ((∀ m ∈ ms, anki_morph_key m.1 m.2 ∉ S) →
        calculate_comprehension_score S ms = 0) := by
  have hpos : 0 < total_occurrences ms := by
    rw [total_occurrences_eq_length ms]
    exact List.length_pos.mpr hne
  constructor
  · intro hall
    have hfil : (morph_counts ms).filter (fun p => is_known_morph S p.1)
        = morph_counts ms := by
      rw [List.filter_eq_self]
      intro p hp
      rcases morph_counts_keys ms [] p (by simpa [morph_counts] using hp) with h | ⟨m, hm, hk⟩
      · simp at h
      · simp only [is_known_morph, hk, decide_eq_true_eq]
        exact hall m hm
    have hknown : known_occurrences S ms = total_occurrences ms := by
      rw [known_occurrences, hfil, total_occurrences]
    rw [calculate_comprehension_score, if_neg hne,
      if_neg (Nat.pos_iff_ne_zero.mp hpos), hknown, score_int, float_of_div]
    have ht : ((total_occurrences ms : ℚ)) ≠ 0 := by
      exact_mod_cast hpos.ne'
    rw [div_self ht]
    decide
  · intro hnone
    have hfil : (morph_counts ms).filter (fun p => is_known_morph S p.1) = [] := by
      rw [List.filter_eq_nil_iff]
      intro p hp
      rcases morph_counts_keys ms [] p (by simpa [morph_counts] using hp) with h | ⟨m, hm, hk⟩
      · simp at h
      · simp only [is_known_morph, hk, decide_eq_true_eq]
        exact hnone m hm
    have hknown : known_occurrences S ms = 0 := by
      rw [known_occurrences, hfil]
      simp
    rw [calculate_comprehension_score, if_neg hne,
      if_neg (Nat.pos_iff_ne_zero.mp hpos), hknown, score_int, float_of_div,
      Nat.cast_zero, zero_div]
    decide

/-- Witness for C8 at concrete inputs. -/
theorem C8_witness :
    calculate_comprehension_score {"ab"} [("a", "b")] = 100 ∧
      calculate_comprehension_score ∅ [("a", "b")] = 0 :=
  ⟨(C8_extreme_scores {"ab"} [("a", "b")] (by decide)).1 (by decide),
   (C8_extreme_scores ∅ [("a", "b")] (by decide)).2 (by decide)⟩

theorem lookup_bump_self (l : List (String × ℕ)) (k : String) :
    (bump l k).lookup k = some (((l.lookup k).getD 0) + 1) := by
  induction l with
  | nil => simp [bump]
  | cons q rest ih =>
    obtain ⟨k', n⟩ := q
    by_cases h : k' = k
    · subst h
      simp [bump]
    · have hkk : (k == k') = false := beq_eq_false_iff_ne.mpr (Ne.symm h)
      simp [bump, h, List.lookup_cons, hkk, ih]

theorem lookup_bump_ne (l : List (String × ℕ)) (k k' : String) (h : k' ≠ k) :
    (bump l k).lookup k' = l.lookup k' := by
  have hkk : (k' == k) = false := beq_eq_false_iff_ne.mpr h
  induction l with
  | nil => simp [bump, List.lookup_cons, hkk]
  | cons q rest ih =>
    obtain ⟨k'', n⟩ := q
    by_cases h2 : k'' = k
    · subst h2
      simp [bump, List.lookup_cons, hkk]
    · simp [bump, h2, List.lookup_cons, ih]

theorem counts_lookup (ms : List (String × String)) :
    ∀ (init : List (String × ℕ)) (k : String),
      ((ms.foldl (fun acc m => bump acc (anki_morph_key m.1 m.2)) init).lookup k).getD 0
        = (init.lookup k).getD 0
            + (ms.map (fun m => anki_morph_key m.1 m.2)).count k := by
  induction ms with
  | nil => simp
  | cons m ms ih =>
    intro init k
    simp only [List.foldl_cons, List.map_cons]
    rw [ih]
    by_cases h : anki_morph_key m.1 m.2 = k
    · subst h
      rw [lookup_bump_self]
      simp [List.count_cons]
      omega
    · rw [lookup_bump_ne _ _ _ (Ne.symm h)]
      simp [List.count_cons, h]

/-- C7: scoring is occurrence-weighted: each occurrence of a morpheme
contributes 1 to its key's count (the count of a key in `morph_counts`
equals the number of occurrences of that key in the sequence), and a
sequence containing one known key 9 times and one unknown key once scores
90, not 50. -/
theorem C7_occurrence_weighted :
    (∀ (ms : List (String × String)) (k : String),
        ((morph_counts ms).lookup k).getD 0
          = (ms.map (fun m => anki_morph_key m.1 m.2)).count k) ∧
      (∀ (S : Finset String) (a b : String × String),
        anki_morph_key a.1 a.2 ∈ S → anki_morph_key b.1 b.2 ∉ S →
        calculate_comprehension_score S (List.replicate 9 a ++ [b]) = 90) := by
  constructor
  · intro ms k
    simpa [morph_counts] using counts_lookup ms [] k
  · intro S a b ha hb
    have hne : anki_morph_key a.1 a.2 ≠ anki_morph_key b.1 b.2 := by
      intro h
      exact hb (h ▸ ha)
    have hrep : ∀ (n macc : ℕ), (List.replicate n a).foldl
        (fun acc m => bump acc (anki_morph_key m.1 m.2))
        [(anki_morph_key a.1 a.2, macc)] = [(anki_morph_key a.1 a.2, macc + n)] := by
      intro n
      induction n with
      | zero => simp
      | succ n ih =>
        intro macc
        rw [List.replicate_succ, List.foldl_cons]
        have hb1 : bump [(anki_morph_key a.1 a.2, macc)] (anki_morph_key a.1 a.2)
            = [(anki_morph_key a.1 a.2, macc + 1)] := by
          simp [bump]
        rw [hb1, ih (macc + 1)]
        have : macc + 1 + n = macc + (n + 1) := by omega
        rw [this]
    have hcounts : morph_counts (List.replicate 9 a ++ [b])
        = [(anki_morph_key a.1 a.2, 9), (anki_morph_key b.1 b.2, 1)] := by
      rw [morph_counts, List.foldl_append]
      rw [show List.replicate 9 a = a :: List.replicate 8 a from rfl]
      simp only [List.foldl_cons, List.foldl_nil]
      have hb0 : bump [] (anki_morph_key a.1 a.2) = [(anki_morph_key a.1 a.2, 1)] := by
        simp [bump]
      rw [hb0, hrep 8 1]
      simp [bump, hne]
    have htot : total_occurrences (List.replicate 9 a ++ [b]) = 10 := by
      rw [total_occurrences, hcounts]
      simp
    have hknown : known_occurrences S (List.replicate 9 a ++ [b]) = 9 := by
      rw [known_occurrences, hcounts]
      simp [is_known_morph, ha, hb]
    rw [calculate_comprehension_score, if_neg (by simp), htot, hknown]
    norm_num
    decide

/-- Witness for C7 at a concrete input. -/
theorem C7_witness :
    calculate_comprehension_score {"k1"}
      (List.replicate 9 ("k", "1") ++ [("u", "2")]) = 90 :=
  C7_occurrence_weighted.2 {"k1"} ("k", "1") ("u", "2") (by decide) (by decide)

/-! ### Line parsing: morph keys (C5) and the classifier decomposition (C6) -/

theorem parse_morph_line_eq_fields (line : List Char) :
    parse_morph_line line
      = (parse_morph_line_fields line).bind
          (fun m => if should_exclude_pos m.2.2 then none
                    else some ((⟨m.1⟩ : String), (⟨m.2.1⟩ : String))) := by
  simp only [parse_morph_line, parse_morph_line_fields]
  split_ifs <;> simp_all

theorem extract_decomposition (ls : List (List Char)) :
    extract_from_lines ls
      = ((ls.filterMap parse_morph_line_fields).filter
          (fun m => !should_exclude_pos m.2.2)).map
          (fun m => ((⟨m.1⟩ : String), (⟨m.2.1⟩ : String))) := by
  induction ls with
  | nil => simp [extract_from_lines]
  | cons l ls ih =>
    simp only [extract_from_lines, List.filterMap_cons] at ih ⊢
    rw [parse_morph_line_eq_fields l]
    cases hf : parse_morph_line_fields l with
    | none => simpa using ih
    | some m =>
      by_cases he : should_exclude_pos m.2.2
      · simp [he, ih]
      · simp [he, ih]

/-- C6: for every sequence of tokenizer output lines, extraction returns
exactly the order-preserving subsequence of well-formed morphemes whose
part of speech is not in the exclusion set `{記号, 補助記号, 空白}`
(extraction = parse well-formed lines, filter by part of speech, in
order); a line with fewer than 2 tab-separated parts or fewer than 7
feature fields is dropped, and a dropped line never aborts the analysis
of the remaining lines. -/
theorem C6_classifier_subsequence :
    (∀ ls : List (List Char),
        extract_from_lines ls
          = ((ls.filterMap parse_morph_line_fields).filter
              (fun m => !should_exclude_pos m.2.2)).map
              (fun m => ((⟨m.1⟩ : String), (⟨m.2.1⟩ : String)))) ∧
      (∀ line : List Char,
        ((splitSep '\t' line).length < 2 ∨
            (splitSep ',' ((splitSep '\t' line).getD 1 [])).length < 7) →
          parse_morph_line_fields line = none ∧ parse_morph_line line = none) ∧
      (∀ (line : List Char) (ls : List (List Char)),
          parse_morph_line line = none →
          extract_from_lines (line :: ls) = extract_from_lines ls) := by
  refine ⟨extract_decomposition, ?_, ?_⟩
  · intro line h
    by_cases h1 : line = "EOS".data ∨ pstrip line = []
    · constructor
      · simp [parse_morph_line_fields, h1]
      · simp [parse_morph_line, h1]
    · rcases h with h | h
      · constructor
        · simp [parse_morph_line_fields, h1, h]
        · simp [parse_morph_line, h1, h]
      · by_cases h2 : (splitSep '\t' line).length < 2
        · constructor
          · simp [parse_morph_line_fields, h1, h2]
          · simp [parse_morph_line, h1, h2]
        · have h' : (splitSep ',' ((splitSep '\t' line)[1]?.getD [])).length < 7 := by
            simpa [List.getD_eq_getElem?_getD] using h
          constructor
          · simp [parse_morph_line_fields, h1, h2, h']
          · simp [parse_morph_line, h1, h2, h']
  · intro line ls h
    simp [extract_from_lines, List.filterMap_cons, h]

/-- Witness for C6 at a concrete input: a line with only one feature field
is dropped by both parsers, and dropping it leaves the rest unchanged. -/
theorem C6_witness :
    parse_morph_line "a\tb".data = none ∧
      extract_from_lines ["a\tb".data] = extract_from_lines [] := by
  have h := C6_classifier_subsequence.2.1 "a\tb".data (Or.inr (by decide))
  exact ⟨h.2, C6_classifier_subsequence.2.2 "a\tb".data [] h.2⟩

/-- C5: a morpheme's key is the plain concatenation of dictionary form
and surface form with no separator, and when the tokenizer reports the
sentinel `*` as the dictionary form (7th feature field), the surface form
is substituted, so the parsed morpheme keys on its surface form twice. -/
theorem C5_key_and_sentinel :
    (∀ lemma_ inflection : String,
        anki_morph_key lemma_ inflection = lemma_ ++ inflection) ∧
      (∀ (line surf featsStr : List Char) (rest feats : List (List Char)),
        splitSep '\t' line = surf :: featsStr :: rest →
        splitSep ',' featsStr = feats →
        7 ≤ feats.length →
        feats.getD 6 [] = ['*'] →
        ¬(line = "EOS".data ∨ pstrip line = []) →
        should_exclude_pos (feats.getD 0 []) = false →
        parse_morph_line line = some ((⟨surf⟩ : String), (⟨surf⟩ : String))) := by
  constructor
  · intro lemma_ inflection
    rfl
  · intro line surf featsStr rest feats hsplit hfeats hlen hstar hguard hexcl
    simp only [parse_morph_line, if_neg hguard, hsplit]
    rw [show (surf :: featsStr :: rest).getD 1 [] = featsStr from rfl,
      show (surf :: featsStr :: rest).getD 0 [] = surf from rfl, hfeats]
    rw [if_neg (by simp only [List.length_cons]; omega)]
    rw [if_neg (by omega)]
    rw [if_pos hstar]
    rw [if_neg (by rw [hexcl]; simp)]

/-- Witness for C5 at a concrete tokenizer line whose 7th feature field is
the sentinel `*`. -/
theorem C5_witness :
    parse_morph_line "ta\tv,a,b,c,d,e,*".data = some ("ta", "ta") :=
  C5_key_and_sentinel.2 "ta\tv,a,b,c,d,e,*".data "ta".data "v,a,b,c,d,e,*".data []
    ["v".data, "a".data, "b".data, "c".data, "d".data, "e".data, "*".data]
    (by decide) (by decide) (by decide) (by decide) (by decide) (by decide)

/-! ### Known-morph loading (C1) -/

/-- C1, counterexample: with a non-empty prior set and rows that are all
malformed (blank or missing required fields), the load returns failure but
the set after the call is empty — it does NOT equal the prior set, so a
failed load does not leave the previously loaded set unchanged. -/
theorem C1_counterexample :
    (load_known_morphs_from_csv {"ab"}
        [⟨some " ", some "x"⟩, ⟨none, some "y"⟩]).2 = false ∧
      (load_known_morphs_from_csv {"ab"}
        [⟨some " ", some "x"⟩, ⟨none, some "y"⟩]).1 = ∅ ∧
      (load_known_morphs_from_csv {"ab"}
        [⟨some " ", some "x"⟩, ⟨none, some "y"⟩]).1 ≠ ({"ab"} : Finset String) := by
  decide

/-- C1 (amended): if a load of known-morph rows accepts zero valid rows
(every row missing or blank in a required field), the load returns failure,
but the previously loaded set is NOT preserved: the method clears it first,
so the set after the call is empty whatever the prior set was. -/
theorem C1_amended (prior : Finset String) (rows : List CsvRow)
    (h : ∀ r ∈ rows, pstrip (r.mLemma.getD "").data = []
        ∨ pstrip (r.mInflection.getD "").data = []) :
    load_known_morphs_from_csv prior rows = (∅, false) := by
  have hstep : ∀ (acc : Finset String × ℕ) r, r ∈ rows → load_row_step acc r = acc := by
    intro acc r hr
    rcases h r hr with h1 | h1 <;> simp [load_row_step, h1]
  have hfold : ∀ (rs : List CsvRow), (∀ r ∈ rs, r ∈ rows) →
      ∀ acc : Finset String × ℕ, rs.foldl load_row_step acc = acc := by
    intro rs
    induction rs with
    | nil => intro _ acc; rfl
    | cons r rs ih =>
      intro hsub acc
      rw [List.foldl_cons, hstep acc r (hsub r (List.mem_cons_self r rs))]
      exact ih (fun q hq => hsub q (List.mem_cons_of_mem r hq)) acc
  rw [load_known_morphs_from_csv]
  rw [hfold rows (fun r hr => hr) (∅, 0)]
  rfl

/-- Witness for C1's amended theorem at a concrete input. -/
theorem C1_amended_witness :
    load_known_morphs_from_csv {"ab"}
      [⟨some " ", some "x"⟩, ⟨none, some "y"⟩] = (∅, false) :=
  C1_amended {"ab"} [⟨some " ", some "x"⟩, ⟨none, some "y"⟩] (by decide)

/-! ### `calculate_comprehension` failure modes (C3, C4) -/

/-- C4: for every input text that is empty or whitespace-only, the scoring
operation fails with the `'No text provided'` failure result — success is
false, an error reason is present and no numeric score (nor any other
counter) is returned — for every analyzer, i.e. before tokenization is
attempted. -/
theorem C4_empty_input (S : Finset String) (analyzer : MeCabAnalyzer)
    (text : String) (h : pstrip text.data = []) :
    calculate_comprehension S analyzer text
      = { success := false, error := some "No text provided",
          comprehension_score := none, subtitle_length := none,
          morpheme_count := none, known_morphs_total := none } := by
  rw [calculate_comprehension, if_pos (Or.inr h)]

/-- Witness for C4 at a whitespace-only input. -/
theorem C4_witness :
    calculate_comprehension ∅ ⟨fun _ => some "x"⟩ "  "
      = { success := false, error := some "No text provided",
          comprehension_score := none, subtitle_length := none,
          morpheme_count := none, known_morphs_total := none } :=
  C4_empty_input ∅ ⟨fun _ => some "x"⟩ "  " (by decide)

/-- C3: for every non-blank input text whose extracted morpheme sequence
is empty, the scoring operation returns the `'Could not extract morphemes
from text'` failure result — success is false and no numeric score is
returned (`comprehension_score` is absent, not 0). -/
theorem C3_no_morphemes (S : Finset String) (analyzer : MeCabAnalyzer)
    (text : String) (hnb : pstrip text.data ≠ [])
    (hempty : extract_morphemes analyzer text = []) :
    calculate_comprehension S analyzer text
      = { success := false, error := some "Could not extract morphemes from text",
          comprehension_score := none, subtitle_length := none,
          morpheme_count := none, known_morphs_total := none } := by
  have hne : ¬(text = "" ∨ pstrip text.data = []) := by
    rintro (h | h)
    · subst h
      exact hnb rfl
    · exact hnb h
  rw [calculate_comprehension, if_neg hne]
  simp [hempty]

/-- Witness for C3: an analyzer whose underlying tagger fails (models the
caught exception) extracts no morphemes from `"a"`. -/
theorem C3_witness :
    calculate_comprehension ∅ ⟨fun _ => none⟩ "a"
      = { success := false, error := some "Could not extract morphemes from text",
          comprehension_score := none, subtitle_length := none,
          morpheme_count := none, known_morphs_total := none } :=
  C3_no_morphemes ∅ ⟨fun _ => none⟩ "a" (by decide) (by decide)

/-! ### Normalization: basic equations and character facts (toward C9) -/

theorem words_nil : words [] = [] := by
  simp [words]

theorem words_cons_space (c : Char) (cs : List Char) (h : isSpace c = true) :
    words (c :: cs) = words cs := by
  rw [words]
  simp [h]

theorem words_cons_nonspace (c : Char) (cs : List Char) (h : isSpace c = false) :
    words (c :: cs) = (c :: cs.takeWhile nonSpace) :: words (cs.dropWhile nonSpace) := by
  rw [words]
  simp [h]

theorem collapse_nil : collapse [] = [] := by
  simp [collapse]

theorem collapse_cons_space (c : Char) (cs : List Char) (h : isSpace c = true) :
    collapse (c :: cs) = ' ' :: collapse (cs.dropWhile isSpace) := by
  rw [collapse]
  simp [h]

theorem collapse_cons_nonspace (c : Char) (cs : List Char) (h : isSpace c = false) :
    collapse (c :: cs) = c :: collapse cs := by
  rw [collapse]
  simp [h]

theorem rstrip_cons (c : Char) (cs : List Char) :
    rstrip (c :: cs)
      = if rstrip cs = [] then (if isSpace c then [] else [c]) else c :: rstrip cs := by
  rw [rstrip]

theorem isSpace_space : isSpace ' ' = true := by decide

theorem nonSpace_space : nonSpace ' ' = false := by decide

theorem puncts_not_space : ∀ p ∈ puncts, isSpace p = false := by decide

theorem space_not_punct (c : Char) (h : isSpace c = true) : c ∉ puncts := by
  intro hc
  have h2 := puncts_not_space c hc
  rw [h] at h2
  cases h2

theorem nonSpace_eq_false (c : Char) (h : nonSpace c = false) : isSpace c = true := by
  simpa [nonSpace] using h

theorem nonSpace_eq_true (c : Char) (h : isSpace c = false) : nonSpace c = true := by
  simp [nonSpace, h]

theorem step1_nil : step1 [] = [] := rfl

theorem step1_cons_punct (c : Char) (cs : List Char) (h : c ∈ puncts) :
    step1 (c :: cs) = ' ' :: c :: ' ' :: step1 cs := by
  simp [step1, h]

theorem step1_cons_nonpunct (c : Char) (cs : List Char) (h : c ∉ puncts) :
    step1 (c :: cs) = c :: step1 cs := by
  simp [step1, h]

theorem step1_append (a b : List Char) : step1 (a ++ b) = step1 a ++ step1 b := by
  induction a with
  | nil => simp [step1]
  | cons c cs ih => simp [step1, ih]

theorem step1_head (cs : List Char) (d : Char) (u : List Char)
    (h : step1 cs = d :: u) : isSpace d = true ∨ d ∉ puncts := by
  cases cs with
  | nil => simp [step1] at h
  | cons e cs' =>
    by_cases he : e ∈ puncts
    · rw [step1_cons_punct e cs' he] at h
      injection h with h1 h2
      subst h1
      exact Or.inl isSpace_space
    · rw [step1_cons_nonpunct e cs' he] at h
      injection h with h1 h2
      subst h1
      exact Or.inr he

theorem step1_id_of_no_puncts (t : List Char) (h : ∀ c ∈ t, c ∉ puncts) :
    step1 t = t := by
  induction t with
  | nil => rfl
  | cons c cs ih =>
    rw [step1_cons_nonpunct c cs (h c (List.mem_cons_self c cs))]
    rw [ih (fun x hx => h x (List.mem_cons_of_mem c hx))]

theorem takeWhile_all (p : Char → Bool) (l : List Char) (h : ∀ a ∈ l, p a = true) :
    l.takeWhile p = l := by
  induction l with
  | nil => rfl
  | cons c cs ih =>
    rw [List.takeWhile_cons_of_pos (h c (List.mem_cons_self c cs))]
    rw [ih (fun a ha => h a (List.mem_cons_of_mem c ha))]

theorem dropWhile_all (p : Char → Bool) (l : List Char) (h : ∀ a ∈ l, p a = true) :
    l.dropWhile p = [] := by
  induction l with
  | nil => rfl
  | cons c cs ih =>
    rw [List.dropWhile_cons_of_pos (h c (List.mem_cons_self c cs))]
    exact ih (fun a ha => h a (List.mem_cons_of_mem c ha))

theorem dropWhile_head_false (p : Char → Bool) (l : List Char) (d : Char)
    (r : List Char) (h : l.dropWhile p = d :: r) : p d = false := by
  induction l with
  | nil => simp at h
  | cons c cs ih =>
    by_cases hc : p c
    · rw [List.dropWhile_cons_of_pos hc] at h
      exact ih h
    · rw [List.dropWhile_cons_of_neg hc] at h
      injection h with h1 h2
      subst h1
      exact Bool.not_eq_true _ |>.mp hc

theorem rstrip_eq_nil_iff (s : List Char) :
    rstrip s = [] ↔ ∀ c ∈ s, isSpace c = true := by
  induction s with
  | nil => simp [rstrip]
  | cons c cs ih =>
    rw [rstrip_cons]
    by_cases hr : rstrip cs = []
    · by_cases hc : isSpace c
      · simp only [if_pos hr, if_pos hc]
        constructor
        · intro _ a ha
          rcases List.mem_cons.mp ha with h | h
          · subst h
            exact hc
          · exact ih.mp hr a h
        · intro _
          trivial
      · simp only [if_pos hr, if_neg hc]
        constructor
        · intro h
          cases h
        · intro h
          exact absurd (h c (List.mem_cons_self c cs)) hc
    · simp only [if_neg hr]
      constructor
      · intro h
        cases h
      · intro h
        exact absurd (ih.mpr (fun a ha => h a (List.mem_cons_of_mem c ha))) hr

theorem rstrip_append (a b : List Char) :
    rstrip (a ++ b) = if rstrip b = [] then rstrip a else a ++ rstrip b := by
  induction a with
  | nil =>
    by_cases hb : rstrip b = [] <;> simp [rstrip, hb]
  | cons c cs ih =>
    rw [List.cons_append, rstrip_cons, ih, rstrip_cons]
    by_cases hb : rstrip b = []
    · simp [hb]
    · have h1 : (if rstrip b = [] then rstrip cs else cs ++ rstrip b) = cs ++ rstrip b := by
        simp [hb]
      have h2 : cs ++ rstrip b ≠ [] := by
        intro hcon
        rcases List.append_eq_nil.mp hcon with ⟨-, h3⟩
        exact hb h3
      simp [hb, h1, h2]

theorem rstrip_of_no_space (l : List Char) (h : ∀ c ∈ l, isSpace c = false) :
    rstrip l = l := by
  induction l with
  | nil => rfl
  | cons c cs ih =>
    rw [rstrip_cons, ih (fun a ha => h a (List.mem_cons_of_mem c ha))]
    by_cases hcs : cs = []
    · subst hcs
      simp [h c (by simp)]
    · simp [hcs]

theorem collapse_of_no_space (l : List Char) (h : ∀ c ∈ l, isSpace c = false) :
    collapse l = l := by
  induction l with
  | nil => exact collapse_nil
  | cons c cs ih =>
    rw [collapse_cons_nonspace c cs (h c (List.mem_cons_self c cs))]
    rw [ih (fun a ha => h a (List.mem_cons_of_mem c ha))]

theorem collapse_append_no_space (w r : List Char) (h : ∀ c ∈ w, isSpace c = false) :
    collapse (w ++ r) = w ++ collapse r := by
  induction w with
  | nil => simp
  | cons c cs ih =>
    rw [List.cons_append, collapse_cons_nonspace c _ (h c (List.mem_cons_self c cs))]
    rw [ih (fun a ha => h a (List.mem_cons_of_mem c ha))]
    rfl

theorem words_eq_nil_iff (s : List Char) :
    words s = [] ↔ ∀ c ∈ s, isSpace c = true := by
  induction s with
  | nil => simp [words_nil]
  | cons c cs ih =>
    by_cases hc : isSpace c
    · rw [words_cons_space c cs hc]
      simp [hc, ih]
    · rw [words_cons_nonspace c cs (Bool.not_eq_true _ |>.mp hc)]
      simp [hc]

theorem words_single (t : List Char) (hne : t ≠ [])
    (hns : ∀ c ∈ t, isSpace c = false) : words t = [t] := by
  cases t with
  | nil => exact absurd rfl hne
  | cons c cs =>
    rw [words_cons_nonspace c cs (hns c (List.mem_cons_self c cs))]
    rw [takeWhile_all nonSpace cs
      (fun a ha => nonSpace_eq_true a (hns a (List.mem_cons_of_mem c ha)))]
    rw [dropWhile_all nonSpace cs
      (fun a ha => nonSpace_eq_true a (hns a (List.mem_cons_of_mem c ha)))]
    rw [words_nil]

theorem words_tokens_aux (n : ℕ) : ∀ (s : List Char), s.length ≤ n →
    ∀ t ∈ words s, t ≠ [] ∧ ∀ c ∈ t, isSpace c = false := by
  induction n with
  | zero =>
    intro s hs t ht
    rw [List.length_eq_zero.mp (Nat.le_zero.mp hs)] at ht
    rw [words_nil] at ht
    cases ht
  | succ n ih =>
    intro s hs t ht
    cases s with
    | nil =>
      rw [words_nil] at ht
      cases ht
    | cons c cs =>
      by_cases hc : isSpace c
      · rw [words_cons_space c cs hc] at ht
        exact ih cs (by simp only [List.length_cons] at hs; omega) t ht
      · rw [words_cons_nonspace c cs (Bool.not_eq_true _ |>.mp hc)] at ht
        rcases List.mem_cons.mp ht with hh | hh
        · subst hh
          refine ⟨by simp, ?_⟩
          intro x hx
          rcases List.mem_cons.mp hx with hx | hx
          · subst hx
            exact Bool.not_eq_true _ |>.mp hc
          · have := List.mem_takeWhile_imp hx
            simpa [nonSpace] using this
        · have hlen : (cs.dropWhile nonSpace).length ≤ n := by
            have hsub : List.Sublist (List.dropWhile nonSpace cs) cs := List.dropWhile_sublist nonSpace
            have h1 := hsub.length_le
            have h2 : cs.length + 1 ≤ n + 1 := by simpa using hs
            omega
          exact ih (cs.dropWhile nonSpace) hlen t hh

theorem words_tokens (s : List Char) :
    ∀ t ∈ words s, t ≠ [] ∧ ∀ c ∈ t, isSpace c = false :=
  words_tokens_aux s.length s le_rfl

theorem words_split_aux (d : Char) (hd : isSpace d = true) (n : ℕ) :
    ∀ (x : List Char), x.length ≤ n →
      ∀ y, words (x ++ d :: y) = words x ++ words y := by
  induction n with
  | zero =>
    intro x hx y
    rw [List.length_eq_zero.mp (Nat.le_zero.mp hx)]
    rw [List.nil_append, words_cons_space d y hd, words_nil, List.nil_append]
  | succ n ih =>
    intro x hx y
    cases x with
    | nil =>
      rw [List.nil_append, words_cons_space d y hd, words_nil, List.nil_append]
    | cons c cs =>
      by_cases hc : isSpace c
      · rw [List.cons_append, words_cons_space c _ hc, words_cons_space c cs hc]
        exact ih cs (by simp only [List.length_cons] at hx; omega) y
      · have hc' : isSpace c = false := Bool.not_eq_true _ |>.mp hc
        have hw : ∀ a ∈ cs.takeWhile nonSpace, nonSpace a = true :=
          fun a ha => List.mem_takeWhile_imp ha
        have hcs : cs.takeWhile nonSpace ++ cs.dropWhile nonSpace = cs :=
          List.takeWhile_append_dropWhile nonSpace cs
        rw [List.cons_append, words_cons_nonspace c _ hc', words_cons_nonspace c cs hc']
        cases hrest : cs.dropWhile nonSpace with
        | nil =>
          rw [hrest] at hcs
          simp only [List.append_nil] at hcs
          have hcsall : ∀ a ∈ cs, nonSpace a = true := by
            intro a ha
            rw [← hcs] at ha
            exact List.mem_takeWhile_imp ha
          rw [List.takeWhile_append_of_pos hcsall,
            List.dropWhile_append_of_pos hcsall]
          rw [List.takeWhile_cons_of_neg (by simp [nonSpace, hd]),
            List.dropWhile_cons_of_neg (by simp [nonSpace, hd])]
          rw [words_cons_space d y hd]
          simp [hcs, words_nil]
        | cons e rest2 =>
          have he : nonSpace e = false := dropWhile_head_false nonSpace cs e rest2 hrest
          have he' : isSpace e = true := nonSpace_eq_false e he
          have hcs2 : cs = cs.takeWhile nonSpace ++ e :: rest2 := by
            conv_lhs => rw [← hcs]
            rw [hrest]
          have hlen2 : rest2.length ≤ n := by
            have h2 : cs.length + 1 ≤ n + 1 := by simpa using hx
            have h3 : cs.length = (cs.takeWhile nonSpace).length + (rest2.length + 1) := by
              conv_lhs => rw [hcs2]
              simp
            omega
          rw [show cs ++ d :: y = cs.takeWhile nonSpace ++ (e :: (rest2 ++ d :: y)) by
            conv_lhs => rw [hcs2]
            simp]
          rw [List.takeWhile_append_of_pos hw,
            List.takeWhile_cons_of_neg (by simp [he]),
            List.dropWhile_append_of_pos hw,
            List.dropWhile_cons_of_neg (by simp [he]),
            List.append_nil]
          rw [words_cons_space e _ he', ih rest2 hlen2 y]
          rw [words_cons_space e rest2 he']
          simp

theorem words_split (x : List Char) (d : Char) (y : List Char)
    (hd : isSpace d = true) : words (x ++ d :: y) = words x ++ words y :=
  words_split_aux d hd x.length x le_rfl y

theorem unwords_cons_of_ne (w : List Char) (ws : List (List Char)) (h : ws ≠ []) :
    unwords (w :: ws) = w ++ ' ' :: unwords ws := by
  cases ws with
  | nil => exact absurd rfl h
  | cons v ws' => rfl

theorem words_unwords (ws : List (List Char))
    (h : ∀ t ∈ ws, t ≠ [] ∧ ∀ c ∈ t, isSpace c = false) :
    words (unwords ws) = ws := by
  induction ws with
  | nil => simpa [unwords] using words_nil
  | cons w ws ih =>
    cases ws with
    | nil =>
      obtain ⟨hne, hns⟩ := h w (by simp)
      simpa [unwords] using words_single w hne hns
    | cons v ws' =>
      rw [unwords_cons_of_ne w (v :: ws') (by simp)]
      rw [words_split w ' ' (unwords (v :: ws')) isSpace_space]
      obtain ⟨hne, hns⟩ := h w (by simp)
      rw [words_single w hne hns, ih (fun t ht => h t (List.mem_cons_of_mem w ht))]
      rfl

theorem explodeAll_nil : explodeAll [] = [] := rfl

theorem explodeAll_cons (w : List Char) (ws : List (List Char)) :
    explodeAll (w :: ws) = words (step1 w) ++ explodeAll ws := rfl

theorem words_step1_aux (n : ℕ) : ∀ (s : List Char), s.length ≤ n →
    words (step1 s) = explodeAll (words s) := by
  induction n with
  | zero =>
    intro s hs
    rw [List.length_eq_zero.mp (Nat.le_zero.mp hs)]
    rw [step1_nil, words_nil, explodeAll_nil]
  | succ n ih =>
    intro s hs
    cases s with
    | nil => rw [step1_nil, words_nil, explodeAll_nil]
    | cons c cs =>
      by_cases hsp : isSpace c
      · rw [step1_cons_nonpunct c cs (space_not_punct c hsp)]
        rw [words_cons_space c _ hsp, words_cons_space c cs hsp]
        exact ih cs (by simp only [List.length_cons] at hs; omega)
      · have hsp' : isSpace c = false := Bool.not_eq_true _ |>.mp hsp
        have hcs : cs.takeWhile nonSpace ++ cs.dropWhile nonSpace = cs :=
          List.takeWhile_append_dropWhile nonSpace cs
        have hceq : c :: cs = (c :: cs.takeWhile nonSpace) ++ cs.dropWhile nonSpace := by
          rw [List.cons_append, hcs]
        rw [words_cons_nonspace c cs hsp', explodeAll_cons]
        conv_lhs => rw [hceq]
        rw [step1_append]
        cases hrest : cs.dropWhile nonSpace with
        | nil =>
          rw [step1_nil, words_nil, explodeAll_nil, List.append_nil, List.append_nil]
        | cons e rest2 =>
          have he : nonSpace e = false := dropWhile_head_false nonSpace cs e rest2 hrest
          have he' : isSpace e = true := nonSpace_eq_false e he
          have hlen2 : rest2.length ≤ n := by
            have h3 : cs.length = (cs.takeWhile nonSpace).length + (rest2.length + 1) := by
              conv_lhs => rw [show cs = cs.takeWhile nonSpace ++ e :: rest2 by
                conv_lhs => rw [← hcs]
                rw [hrest]]
              simp
            simp only [List.length_cons] at hs
            omega
          rw [step1_cons_nonpunct e rest2 (space_not_punct e he')]
          rw [words_split (step1 (c :: cs.takeWhile nonSpace)) e (step1 rest2) he']
          rw [ih rest2 hlen2]
          rw [words_cons_space e rest2 he']

theorem words_step1 (s : List Char) : words (step1 s) = explodeAll (words s) :=
  words_step1_aux s.length s le_rfl

theorem step1_tokens_pure (s : List Char) :
    ∀ t ∈ words (step1 s), pureTok t := by
  induction s with
  | nil =>
    rw [step1_nil, words_nil]
    intro t ht
    cases ht
  | cons c cs ih =>
    by_cases hsp : isSpace c
    · rw [step1_cons_nonpunct c cs (space_not_punct c hsp), words_cons_space c _ hsp]
      exact ih
    · have hsp' : isSpace c = false := Bool.not_eq_true _ |>.mp hsp
      by_cases hp : c ∈ puncts
      · rw [step1_cons_punct c cs hp]
        rw [words_cons_space ' ' _ isSpace_space]
        rw [words_cons_nonspace c _ hsp']
        rw [List.takeWhile_cons_of_neg (by simp [nonSpace, isSpace_space])]
        rw [List.dropWhile_cons_of_neg (by simp [nonSpace, isSpace_space])]
        rw [words_cons_space ' ' _ isSpace_space]
        intro t ht
        rcases List.mem_cons.mp ht with h | h
        · subst h
          exact Or.inl ⟨c, rfl, hp⟩
        · exact ih t h
      · rw [step1_cons_nonpunct c cs hp]
        cases hstep : step1 cs with
        | nil =>
          rw [words_cons_nonspace c [] hsp']
          intro t ht
          rcases List.mem_cons.mp ht with h | h
          · subst h
            refine Or.inr ?_
            intro x hx
            simp only [List.takeWhile_nil] at hx
            rcases List.mem_cons.mp hx with h | h
            · subst h
              exact hp
            · cases h
          · rw [List.dropWhile_nil, words_nil] at h
            cases h
        | cons d u =>
          by_cases hd : isSpace d
          · rw [words_cons_nonspace c _ hsp']
            rw [List.takeWhile_cons_of_neg (by simp [nonSpace, hd])]
            rw [List.dropWhile_cons_of_neg (by simp [nonSpace, hd])]
            intro t ht
            rcases List.mem_cons.mp ht with h | h
            · subst h
              refine Or.inr ?_
              intro x hx
              rcases List.mem_cons.mp hx with h | h
              · subst h
                exact hp
              · cases h
            · rw [words_cons_space d u hd] at h
              have h2 : t ∈ words (step1 cs) := by
                rw [hstep, words_cons_space d u hd]
                exact h
              exact ih t h2
          · have hd' : isSpace d = false := Bool.not_eq_true _ |>.mp hd
            have hdp : d ∉ puncts := by
              rcases step1_head cs d u hstep with h | h
              · rw [h] at hd'
                cases hd'
              · exact h
            rw [words_cons_nonspace c _ hsp']
            rw [List.takeWhile_cons_of_pos (by simp [nonSpace, hd'])]
            rw [List.dropWhile_cons_of_pos (by simp [nonSpace, hd'])]
            intro t ht
            have hft : (d :: u.takeWhile nonSpace) ∈ words (step1 cs) := by
              rw [hstep, words_cons_nonspace d u hd']
              exact List.mem_cons_self _ _
            have hftpure := ih (d :: u.takeWhile nonSpace) hft
            have hftfree : ∀ x ∈ d :: u.takeWhile nonSpace, x ∉ puncts := by
              rcases hftpure with ⟨p, hpe, hpp⟩ | hfree
              · injection hpe with h1 h2
                subst h1
                exact absurd hpp hdp
              · exact hfree
            rcases List.mem_cons.mp ht with h | h
            · subst h
              refine Or.inr ?_
              intro x hx
              rcases List.mem_cons.mp hx with h | h
              · subst h
                exact hp
              · exact hftfree x h
            · have h2 : t ∈ words (step1 cs) := by
                rw [hstep, words_cons_nonspace d u hd']
                exact List.mem_cons_of_mem _ h
              exact ih t h2

theorem words_step1_pure_single (t : List Char) (hne : t ≠ [])
    (hns : ∀ c ∈ t, isSpace c = false) (hp : pureTok t) :
    words (step1 t) = [t] := by
  rcases hp with ⟨p, rfl, hpp⟩ | hfree
  · rw [step1_cons_punct p [] hpp, step1_nil]
    rw [words_cons_space ' ' _ isSpace_space]
    rw [words_cons_nonspace p _ (puncts_not_space p hpp)]
    rw [List.takeWhile_cons_of_neg (by simp [nonSpace, isSpace_space])]
    rw [List.dropWhile_cons_of_neg (by simp [nonSpace, isSpace_space])]
    rw [words_cons_space ' ' _ isSpace_space, words_nil]
  · rw [step1_id_of_no_puncts t hfree]
    exact words_single t hne hns

theorem explodeAll_fixed (ws : List (List Char))
    (h : ∀ t ∈ ws, (t ≠ [] ∧ ∀ c ∈ t, isSpace c = false) ∧ pureTok t) :
    explodeAll ws = ws := by
  induction ws with
  | nil => rfl
  | cons w ws ih =>
    rw [explodeAll_cons]
    obtain ⟨⟨hne, hns⟩, hp⟩ := h w (by simp)
    rw [words_step1_pure_single w hne hns hp]
    rw [ih (fun t ht => h t (List.mem_cons_of_mem w ht))]
    rfl

theorem pstrip_cons_space (c : Char) (cs : List Char) (h : isSpace c = true) :
    pstrip (c :: cs) = pstrip cs := by
  rw [pstrip, pstrip, rstrip_cons]
  by_cases hr : rstrip cs = []
  · rw [if_pos hr, if_pos h, hr]
  · rw [if_neg hr, List.dropWhile_cons_of_pos h]

theorem collapse_pstrip_aux (n : ℕ) : ∀ (s : List Char), s.length ≤ n →
    collapse (pstrip s) = unwords (words s) := by
  induction n with
  | zero =>
    intro s hs
    rw [List.length_eq_zero.mp (Nat.le_zero.mp hs)]
    rw [show pstrip [] = [] from rfl, collapse_nil, words_nil]
    rfl
  | succ n ih =>
    intro s hs
    cases s with
    | nil =>
      rw [show pstrip [] = [] from rfl, collapse_nil, words_nil]
      rfl
    | cons c cs =>
      by_cases hsp : isSpace c
      · rw [pstrip_cons_space c cs hsp, words_cons_space c cs hsp]
        exact ih cs (by simp only [List.length_cons] at hs; omega)
      · have hsp' : isSpace c = false := Bool.not_eq_true _ |>.mp hsp
        have hw : ∀ a ∈ cs.takeWhile nonSpace, nonSpace a = true :=
          fun a ha => List.mem_takeWhile_imp ha
        have hwns : ∀ a ∈ c :: cs.takeWhile nonSpace, isSpace a = false := by
          intro a ha
          rcases List.mem_cons.mp ha with h | h
          · subst h
            exact hsp'
          · have := hw a h
            simpa [nonSpace] using this
        have hcs : cs.takeWhile nonSpace ++ cs.dropWhile nonSpace = cs :=
          List.takeWhile_append_dropWhile nonSpace cs
        have hceq : c :: cs = (c :: cs.takeWhile nonSpace) ++ cs.dropWhile nonSpace := by
          rw [List.cons_append, hcs]
        rw [words_cons_nonspace c cs hsp']
        conv_lhs => rw [pstrip, hceq, rstrip_append]
        by_cases hb : rstrip (cs.dropWhile nonSpace) = []
        · rw [if_pos hb]
          rw [rstrip_of_no_space _ hwns]
          rw [List.dropWhile_cons_of_neg (by simp [hsp'])]
          rw [collapse_of_no_space _ hwns]
          have hall : ∀ x ∈ cs.dropWhile nonSpace, isSpace x = true :=
            (rstrip_eq_nil_iff _).mp hb
          rw [(words_eq_nil_iff _).mpr hall]
          rfl
        · rw [if_neg hb]
          cases hrest : cs.dropWhile nonSpace with
          | nil =>
            rw [hrest] at hb
            exact absurd rfl hb
          | cons e rest2 =>
            have he : nonSpace e = false := dropWhile_head_false nonSpace cs e rest2 hrest
            have he' : isSpace e = true := nonSpace_eq_false e he
            have hlen2 : rest2.length ≤ n := by
              have h3 : cs.length = (cs.takeWhile nonSpace).length + (rest2.length + 1) := by
                conv_lhs => rw [show cs = cs.takeWhile nonSpace ++ e :: rest2 by
                  conv_lhs => rw [← hcs]
                  rw [hrest]]
                simp
              simp only [List.length_cons] at hs
              omega
            rw [hrest] at hb
            by_cases hr2 : rstrip rest2 = []
            · rw [rstrip_cons, if_pos hr2, if_pos he'] at hb
              exact absurd rfl hb
            · rw [rstrip_cons, if_neg hr2]
              rw [show (c :: cs.takeWhile nonSpace) ++ e :: rstrip rest2
                  = c :: (cs.takeWhile nonSpace ++ e :: rstrip rest2) from rfl]
              rw [List.dropWhile_cons_of_neg (by simp [hsp'])]
              rw [show c :: (cs.takeWhile nonSpace ++ e :: rstrip rest2)
                  = (c :: cs.takeWhile nonSpace) ++ e :: rstrip rest2 from rfl]
              rw [collapse_append_no_space _ _ hwns]
              rw [collapse_cons_space e _ he']
              rw [show (rstrip rest2).dropWhile isSpace = pstrip rest2 from rfl]
              rw [ih rest2 hlen2]
              rw [words_cons_space e rest2 he']
              have hwne : words rest2 ≠ [] := by
                intro hcon
                exact hr2 ((rstrip_eq_nil_iff rest2).mpr ((words_eq_nil_iff rest2).mp hcon))
              rw [unwords_cons_of_ne _ _ hwne]

theorem collapse_pstrip (s : List Char) :
    collapse (pstrip s) = unwords (words s) :=
  collapse_pstrip_aux s.length s le_rfl

theorem preprocess_idem (l : List Char) : preprocess (preprocess l) = preprocess l := by
  have h1 : preprocess l = unwords (words (step1 l)) := by
    rw [preprocess]
    exact collapse_pstrip (step1 l)
  have hT := words_tokens (step1 l)
  have hTp := step1_tokens_pure l
  have h2 : preprocess (preprocess l)
      = unwords (words (step1 (unwords (words (step1 l))))) := by
    rw [preprocess, h1, collapse_pstrip]
  rw [h2, words_step1, words_unwords _ hT,
    explodeAll_fixed _ (fun t ht => ⟨hT t ht, hTp t ht⟩), ← h1]

/-- C9: text normalization is idempotent: for every input string,
`preprocess_text (preprocess_text s) = preprocess_text s`, where
`preprocess_text` puts a space before and after each of `。、！？`,
strips leading/trailing whitespace and collapses every whitespace run to
a single space (app.py 142-151). -/
theorem C9_normalize_idempotent (s : String) :
    preprocess_text (preprocess_text s) = preprocess_text s := by
  simp only [preprocess_text]
  exact congrArg String.mk (preprocess_idem s.data)
